import Mathlib

/-!
# Multithread downloader: a shallow embedding of `downloader.c`

C strings are modelled as `List Char`, one element per `char`, the terminating
NUL left implicit (so a C string holds no NUL element).  A `char *` that may be
`NULL` is an `Option (List Char)`.  The global `int default_file_num` is an
`Int`; its increment wraps at 32 bits.
-/

namespace Downloader

/-! ## Constants of the program -/

/-- Number of slots of the queue: `#define MAX_ARRAY 1000`. -/
def MAX_ARRAY : Nat := 1000

/-- Size of the line buffer of `main`: `#define MAX_CHAR_READ 500`. -/
def MAX_CHAR_READ : Nat := 500

/-- Size of the path buffer: `#define FULL_FILE_PATHWAY_SIZE 200`. -/
def FULL_FILE_PATHWAY_SIZE : Nat := 200

/-- Largest value of a C `int` (32 bits). -/
def INT_MAX : Int := 2147483647

/-! ## libc helpers used by the program -/

/-- The libc `strrchr(s, c)`: offset of the last occurrence of `c` in `s`, `none` for `NULL`. -/
def strrchr : List Char → Char → Option Nat
  | [], _ => none
  | x :: xs, c =>
    match strrchr xs c with
    | some i => some (i + 1)
    | none => if x = c then some 0 else none

/-- The libc `strcspn(s, reject)`: length of the longest prefix of `s` with no character of `reject`. -/
def strcspn (s : List Char) (reject : List Char) : Nat :=
  (s.takeWhile (fun c => !reject.contains c)).length

/-- The character of a decimal digit. -/
def digit_char (d : Nat) : Char := Char.ofNat (48 + d)

/-- Decimal digits of `n`, most significant first; `fuel` bounds the number of digits. -/
def decimal_fuel : Nat → Nat → List Char
  | 0, _ => []
  | fuel + 1, n =>
    if n < 10 then [digit_char n]
    else decimal_fuel fuel (n / 10) ++ [digit_char (n % 10)]

/-- Decimal digits of a natural number. -/
def decimal (n : Nat) : List Char := decimal_fuel (n + 1) n

/-- What `printf("%d", n)` prints. -/
def fmt_d (n : Int) : List Char :=
  if n < 0 then '-' :: decimal n.natAbs else decimal n.toNat

/-- The libc `snprintf(buf, size, ...)` keeps at most `size - 1` characters of the formatted text. -/
def snprintf (size : Nat) (text : List Char) : List Char := text.take (size - 1)

/-- The value of `n + 1` on a 32-bit `int`, wrapping in two's complement. -/
def int_incr (n : Int) : Int := (n + 1 + 2147483648) % 4294967296 - 2147483648

/-! ## extract_file_name -/

/-- The `else` branch of `extract_file_name`: `File_<default_file_num>.txt` in a 40-byte buffer,
then `default_file_num++`. -/
def default_name (default_file_num : Int) : List Char × Int :=
  (snprintf 40 ("File_".toList ++ fmt_d default_file_num ++ ".txt".toList),
   int_incr default_file_num)

/-- The function `extract_file_name(url)` with the global `default_file_num` passed in and returned. -/
def extract_file_name (default_file_num : Int) (url : List Char) : List Char × Int :=
  match strrchr url '/' with
  | some last_slash =>
    if url.drop (last_slash + 1) ≠ [] then
      let file_name := url.drop (last_slash + 1)
      match strrchr file_name '?' with
      | some question_mark => (file_name.take question_mark, default_file_num)
      | none => (file_name, default_file_num)
    else default_name default_file_num
  | none => default_name default_file_num

/-! ## The work queue and one claim -/

/-- The global `char *urls[MAX_ARRAY]`: one element per slot, `none` for `NULL`. -/
abbrev Queue := List (Option (List Char))

/-- The `for (j = 0; j < MAX_ARRAY; j++)` scan of `Download_file`, at index `j` with `fuel`
iterations left: the value of `temp_url_name` after the loop and the `urls` array. -/
def claim_loop (urls : Queue) : Nat → Nat → Option (List Char) × Queue
  | 0, _ => (none, urls)
  | fuel + 1, j =>
    match urls[j]? with
    | some (some url) => (some url, urls.set j none)
    | _ => claim_loop urls fuel (j + 1)

/-- One claim: the critical section of `Download_file` between the lock and the unlock of
`queue_mutex`. -/
def claim (urls : Queue) : Option (List Char) × Queue := claim_loop urls MAX_ARRAY 0

/-- A sequence of claims, one per element of `workers` (the worker issuing it): each result
paired with its worker, and the queue left at the end. -/
def claims : List Nat → Queue → List (Nat × Option (List Char)) × Queue
  | [], urls => ([], urls)
  | w :: ws, urls =>
    let r := claim urls
    let rest := claims ws r.2
    ((w, r.1) :: rest.1, rest.2)

/-- The live (non-NULL) entries of the queue, in increasing slot order. -/
def live (urls : Queue) : List (List Char) := urls.filterMap id

/-- The queue with its first `k` live slots set to `NULL`. -/
def clear_first : Nat → Queue → Queue
  | 0, urls => urls
  | _, [] => []
  | k + 1, none :: rest => none :: clear_first (k + 1) rest
  | k + 1, some _ :: rest => none :: clear_first k rest

/-! ## One worker: Download_file -/

/-- What the environment answers during one iteration of the worker's loop. -/
structure Env where
  /-- whether `curl_easy_init()` returned a session -/
  curl_ok : Bool
  /-- whether `fopen(full_file_pathway, "wb")` returned a file -/
  fopen_ok : Bool
  /-- the `CURLcode` of `curl_easy_perform`, `0` being `CURLE_OK` -/
  res : Nat
  /-- the fields `tm_hour`, `tm_min`, `tm_sec` of `localtime` at completion -/
  hour : Nat
  min : Nat
  sec : Nat
  deriving DecidableEq, Repr

/-- The observable actions of a worker. -/
inductive Event where
  /-- a call `fopen(path, "wb")` and whether it succeeded -/
  | fopen (path : List Char) (ok : Bool)
  /-- the call `perror("fopen failed")` -/
  | perror_fopen
  /-- the line `curl_easy_init() error` on stderr -/
  | curl_init_error
  /-- a call of `curl_easy_perform` on a session set to `url`, with its result -/
  | perform (url : List Char) (res : Nat)
  /-- the line `Download failed for <url>: <curl_easy_strerror(res)>` -/
  | download_failed (url : List Char) (res : Nat)
  /-- the line `Downloaded <file_name> [hh:mm:ss]` -/
  | downloaded (file_name : List Char) (hour min sec : Nat)
  deriving DecidableEq, Repr

/-- The globals a worker reads and writes, and the actions performed so far. -/
structure World where
  urls : Queue
  default_file_num : Int
  trace : List Event
  deriving DecidableEq, Repr

/-- The path buffer after `snprintf(full_file_pathway, FULL_FILE_PATHWAY_SIZE, "%s/%s", file_pathway, file_name)` -/
def full_file_pathway (file_pathway file_name : List Char) : List Char :=
  snprintf FULL_FILE_PATHWAY_SIZE (file_pathway ++ '/' :: file_name)

/-- The line printed under `print_mutex` once `curl_easy_perform` has returned. -/
def terminal_line (e : Env) (temp_url_name file_name : List Char) : Event :=
  if e.res ≠ 0 then Event.download_failed temp_url_name e.res
  else Event.downloaded file_name e.hour e.min e.sec

/-- The function `Download_file`: the `while (1)` loop of one worker, `env i` being the environment of
iteration `i`.  `none` only when `fuel` iterations did not reach the end of the loop. -/
def Download_file (env : Nat → Env) (file_pathway : List Char) :
    Nat → Nat → World → Option World
  | 0, _, _ => none
  | fuel + 1, i, w =>
    match claim w.urls with
    | (none, urls) => some { w with urls := urls }
    | (some temp_url_name, urls) =>
      let named := extract_file_name w.default_file_num temp_url_name
      let path := full_file_pathway file_pathway named.1
      if (env i).fopen_ok = false then
        some { urls := urls, default_file_num := named.2,
               trace := w.trace ++ [Event.fopen path false, Event.perror_fopen] }
      else if (env i).curl_ok = false then
        some { urls := urls, default_file_num := named.2,
               trace := w.trace ++ [Event.fopen path true, Event.curl_init_error] }
      else
        Download_file env file_pathway fuel (i + 1)
          { urls := urls, default_file_num := named.2,
            trace := w.trace ++ [Event.fopen path true,
              Event.perform temp_url_name (env i).res,
              terminal_line (env i) temp_url_name named.1] }

/-- The URLs handed to `curl_easy_perform`, in order. -/
def fetch_attempts : List Event → List (List Char)
  | [] => []
  | Event.perform url _ :: es => url :: fetch_attempts es
  | _ :: es => fetch_attempts es

/-- The terminal lines (`Downloaded ...` or `Download failed for ...`), in order. -/
def terminal_lines : List Event → List Event
  | [] => []
  | Event.download_failed url res :: es => Event.download_failed url res :: terminal_lines es
  | Event.downloaded n h m s :: es => Event.downloaded n h m s :: terminal_lines es
  | _ :: es => terminal_lines es

/-- The paths handed to `fopen`, in order. -/
def opened_paths : List Event → List (List Char)
  | [] => []
  | Event.fopen path _ :: es => path :: opened_paths es
  | _ :: es => opened_paths es

/-- Sequential calls of `extract_file_name` on a list of URLs: the names returned, in order,
and the final value of `default_file_num`. -/
def name_all : Int → List (List Char) → List (List Char) × Int
  | c, [] => ([], c)
  | c, url :: rest =>
    let r := extract_file_name c url
    let rs := name_all r.2 rest
    (r.1 :: rs.1, rs.2)

/-- A URL with no discernible name: no `/` in it, or nothing after its final `/`. -/
def no_name (url : List Char) : Bool :=
  !url.contains '/' || url.getLast? == some '/'

/-- The text `File_<n>.txt`. -/
def File_txt (n : Int) : List Char := "File_".toList ++ fmt_d n ++ ".txt".toList

/-- The values of a C `int`. -/
def int_range (n : Int) : Prop := -2147483648 ≤ n ∧ n ≤ INT_MAX

instance (n : Int) : Decidable (int_range n) := by unfold int_range; infer_instance

/-- The names that sequential calls of `extract_file_name`, started with the counter at `c`,
return for the URLs with no discernible name, in call order. -/
def fallback_names (c : Int) (urls : List (List Char)) : List (List Char) :=
  (((name_all c urls).1.zip urls).filter (fun p => no_name p.2)).map Prod.fst

/-- The actions of a worker over the URLs `us`, claimed in this order from iteration `i` on
with the counter at `c`, when every file and every session is created. -/
def run_trace (env : Nat → Env) (file_pathway : List Char) :
    Nat → Int → List (List Char) → List Event
  | _, _, [] => []
  | i, c, u :: us =>
    [Event.fopen (full_file_pathway file_pathway (extract_file_name c u).1) true,
      Event.perform u (env i).res,
      terminal_line (env i) u (extract_file_name c u).1]
      ++ run_trace env file_pathway (i + 1) (extract_file_name c u).2 us

/-- A queue of `MAX_ARRAY` slots with the live slots 0 and 2. -/
def sample_queue : Queue :=
  some "https://a.com/x".toList :: none :: some "https://b.com/y?v=1".toList ::
    List.replicate 997 none

/-- A queue of `MAX_ARRAY` slots holding two distinct URLs with the same last path segment. -/
def clash_queue : Queue :=
  some "https://a.com/x".toList :: some "https://b.com/x".toList :: List.replicate 998 none

/-- A queue of `MAX_ARRAY` slots holding three URLs, the first two with the same last path
segment. -/
def three_queue : Queue :=
  some "https://a.com/x".toList :: some "https://b.com/x".toList ::
    some "https://c.com/y".toList :: List.replicate 997 none

/-- An environment in which everything is created and only the fetch of iteration 1 fails. -/
def sample_env : Nat → Env :=
  fun k => { curl_ok := true, fopen_ok := true, res := if k = 1 then 6 else 0,
             hour := 12, min := 0, sec := k }

/-- An environment in which the `fopen` of iteration 0 fails. -/
def fopen_fails_env : Nat → Env :=
  fun k => { curl_ok := true, fopen_ok := decide (k ≠ 0), res := 0, hour := 12, min := 0,
             sec := k }

/-! ## The seeding loop of `main` -/

/-- The characters `fgets` stores when `n` more fit in the buffer, and the rest of the stream. -/
def fgets_line : Nat → List Char → List Char × List Char
  | 0, s => ([], s)
  | _ + 1, [] => ([], [])
  | n + 1, c :: s =>
    if c = '\n' then ([c], s)
    else ((c :: (fgets_line n s).1), (fgets_line n s).2)

/-- The libc `fgets(line, size, stream)`: `none` for `NULL` at end of file. -/
def fgets (size : Nat) (stream : List Char) : Option (List Char × List Char) :=
  if stream = [] then none else some (fgets_line (size - 1) stream)

/-- The `while (fgets(...) != NULL)` loop of `main` followed by `urls[j] = NULL`. -/
def seed_loop : Nat → List Char → Nat → Queue → Option Queue
  | 0, _, _, _ => none
  | fuel + 1, stream, j, urls =>
    match fgets MAX_CHAR_READ stream with
    | none => some (urls.set j none)
    | some (line, rest) =>
      seed_loop fuel rest (j + 1) (urls.set j (some (line.take (strcspn line ['\r']))))

/-- The queue after seeding from the text of the URL-list file. -/
def seed (file : List Char) : Option Queue :=
  seed_loop (file.length + 1) file 0 (List.replicate MAX_ARRAY none)

/-! ## Concurrent callers of the fallback branch of `extract_file_name` -/

/-- Program points of the `else` branch of `extract_file_name`. -/
inductive Pc where
  /-- about to `pthread_mutex_lock(&count_mutex)` -/
  | lock
  /-- about to `snprintf(..., default_file_num)` -/
  | format
  /-- about to `pthread_mutex_unlock(&count_mutex)` -/
  | unlock
  /-- about to `default_file_num++` -/
  | incr
  /-- about to return `default_file_name` -/
  | done
  deriving DecidableEq, Repr

/-- One caller: its program point and its `default_file_name` buffer. -/
structure Caller where
  pc : Pc
  name : Option (List Char)
  deriving DecidableEq, Repr

/-- The shared state: the holder of `count_mutex`, the counter, the callers. -/
structure Shared where
  count_mutex : Option Nat
  default_file_num : Int
  callers : List Caller
  deriving DecidableEq, Repr

/-- One step of caller `t`; `none` when `t` is blocked on the mutex or has returned. -/
def step (s : Shared) (t : Nat) : Option Shared :=
  match s.callers[t]? with
  | none => none
  | some c =>
    match c.pc with
    | Pc.lock =>
      if s.count_mutex = none then
        some { s with count_mutex := some t, callers := s.callers.set t { c with pc := Pc.format } }
      else none
    | Pc.format =>
      let text := snprintf 40 ("File_".toList ++ fmt_d s.default_file_num ++ ".txt".toList)
      some { s with callers := s.callers.set t { pc := Pc.unlock, name := some text } }
    | Pc.unlock =>
      some { s with count_mutex := none, callers := s.callers.set t { c with pc := Pc.incr } }
    | Pc.incr =>
      some { s with default_file_num := int_incr s.default_file_num,
                    callers := s.callers.set t { c with pc := Pc.done } }
    | Pc.done => none

/-- Runs a schedule (the caller to step next, in order). -/
def run_schedule : Shared → List Nat → Option Shared
  | s, [] => some s
  | s, t :: ts =>
    match step s t with
    | some s1 => run_schedule s1 ts
    | none => none

/-- The state in which `n` callers are about to enter the fallback branch. -/
def start (n : Nat) : Shared :=
  { count_mutex := none, default_file_num := 0,
    callers := List.replicate n { pc := Pc.lock, name := none } }

/-! ## Auxiliary definitions used in the proofs -/

/-- The number a list of decimal digits stands for (used to read `decimal` back). -/
def dec_val (ds : List Char) : Nat := ds.foldl (fun a ch => 10 * a + (ch.toNat - 48)) 0

/-- The claim read off the list of slots: the first live slot is emptied and its entry returned. -/
def claim_first : Queue → Option (List Char) × Queue
  | [] => (none, [])
  | none :: rest => ((claim_first rest).1, none :: (claim_first rest).2)
  | some u :: rest => (some u, none :: rest)

/-! ## Facts about the libc helpers -/

theorem strrchr_eq_none {s : List Char} {c : Char} : strrchr s c = none ↔ c ∉ s := by
  induction s with
  | nil => simp [strrchr]
  | cons x xs ih =>
    simp only [strrchr, List.mem_cons, not_or]
    cases h : strrchr xs c with
    | some i =>
      have : ¬ (c ∉ xs) := fun hn => by rw [ih.mpr hn] at h; cases h
      simp [this]
    | none =>
      have hx := ih.mp h
      by_cases hxc : x = c
      · simp [hxc]
      · have : ¬ c = x := fun e => hxc e.symm
        simp [hxc, this, hx]

theorem strrchr_append_cons (pre suf : List Char) (c : Char) (h : c ∉ suf) :
    strrchr (pre ++ c :: suf) c = some pre.length := by
  induction pre with
  | nil => simp [strrchr, strrchr_eq_none.mpr h]
  | cons x xs ih => simp [strrchr, ih]

theorem strrchr_some {s : List Char} {c : Char} {i : Nat} (h : strrchr s c = some i) :
    s = s.take i ++ c :: s.drop (i + 1) ∧ c ∉ s.drop (i + 1) := by
  induction s generalizing i with
  | nil => simp [strrchr] at h
  | cons x xs ih =>
    simp only [strrchr] at h
    cases hx : strrchr xs c with
    | some j =>
      rw [hx] at h
      simp only [Option.some.injEq] at h
      subst h
      have := ih hx
      refine ⟨?_, by simpa using this.2⟩
      simp only [List.take_succ_cons, List.drop_succ_cons, List.cons_append, List.cons.injEq,
        true_and]
      exact this.1
    | none =>
      rw [hx] at h
      by_cases hxc : x = c
      · simp only [hxc, if_true, Option.some.injEq] at h
        subst h
        subst hxc
        exact ⟨by simp, by simpa using strrchr_eq_none.mp hx⟩
      · simp [hxc] at h

theorem digit_char_toNat (d : Nat) (h : d < 10) : (digit_char d).toNat - 48 = d := by
  interval_cases d <;> rfl

theorem dec_val_decimal_fuel (fuel n : Nat) (h : n < fuel) : dec_val (decimal_fuel fuel n) = n := by
  induction fuel generalizing n with
  | zero => omega
  | succ fuel ih =>
    unfold decimal_fuel
    by_cases h10 : n < 10
    · simp [h10, dec_val, digit_char_toNat n h10]
    · have hdiv : n / 10 < fuel := by omega
      have := ih (n / 10) hdiv
      simp only [dec_val] at this
      simp only [h10, if_false, dec_val, List.foldl_append, List.foldl_cons, List.foldl_nil, this,
        digit_char_toNat (n % 10) (Nat.mod_lt _ (by decide))]
      omega

theorem decimal_injective {a b : Nat} (h : decimal a = decimal b) : a = b := by
  have ha := dec_val_decimal_fuel (a + 1) a (Nat.lt_succ_self a)
  have hb := dec_val_decimal_fuel (b + 1) b (Nat.lt_succ_self b)
  unfold decimal at h
  rw [h] at ha
  omega

theorem decimal_fuel_length (fuel n k : Nat) (h : n < 10 ^ (k + 1)) :
    (decimal_fuel fuel n).length ≤ k + 1 := by
  induction fuel generalizing n k with
  | zero => simp [decimal_fuel]
  | succ fuel ih =>
    unfold decimal_fuel
    by_cases h10 : n < 10
    · simp [h10]
    · cases k with
      | zero => simp at h; omega
      | succ k =>
        have hdiv : n / 10 < 10 ^ (k + 1) := by
          rw [Nat.div_lt_iff_lt_mul (by decide)]
          calc n < 10 ^ (k + 1 + 1) := h
            _ = 10 ^ (k + 1) * 10 := by ring
        have := ih (n / 10) k hdiv
        simp only [h10, if_false, List.length_append, List.length_singleton]
        omega

theorem fmt_d_length {n : Int} (h : int_range n) : (fmt_d n).length ≤ 11 := by
  obtain ⟨h1, h2⟩ := h
  unfold INT_MAX at h2
  unfold fmt_d
  by_cases hn : n < 0
  · have hb : n.natAbs < 10 ^ (9 + 1) := by omega
    have := decimal_fuel_length (n.natAbs + 1) n.natAbs 9 hb
    simp only [hn, if_true, List.length_cons, decimal]
    omega
  · have hb : n.toNat < 10 ^ (9 + 1) := by omega
    have := decimal_fuel_length (n.toNat + 1) n.toNat 9 hb
    simp only [hn, if_false, decimal]
    omega

theorem fmt_d_natCast (k : Nat) : fmt_d (k : Int) = decimal k := by
  unfold fmt_d
  have : ¬ ((k : Int) < 0) := by omega
  simp [this]

theorem File_txt_ne_nil (n : Int) : File_txt n ≠ [] := by
  simp [File_txt]

theorem File_txt_natCast_injective {a b : Nat} (h : File_txt (a : Int) = File_txt (b : Int)) :
    a = b := by
  unfold File_txt at h
  rw [fmt_d_natCast, fmt_d_natCast, List.append_assoc, List.append_assoc] at h
  have h1 := List.append_cancel_left h
  have h2 := List.append_cancel_right h1
  exact decimal_injective h2

theorem default_name_eq {c : Int} (h : int_range c) :
    default_name c = (File_txt c, int_incr c) := by
  have hl := fmt_d_length h
  unfold default_name snprintf File_txt
  congr 1
  apply List.take_of_length_le
  simp only [List.length_append]
  have h5 : "File_".toList.length = 5 := by decide
  have h4 : ".txt".toList.length = 4 := by decide
  omega

theorem int_incr_natCast (k : Nat) (h : (k : Int) < INT_MAX) : int_incr (k : Int) = ((k + 1 : Nat) : Int) := by
  unfold INT_MAX at h
  unfold int_incr
  omega

theorem int_range_natCast (k : Nat) (h : (k : Int) ≤ INT_MAX) : int_range (k : Int) := by
  unfold INT_MAX at h
  unfold int_range INT_MAX
  omega

/-! ## Facts about `extract_file_name` -/

theorem url_cases (url : List Char) :
    '/' ∉ url ∨ (∃ pre, url = pre ++ ['/']) ∨
      (∃ pre suf, url = pre ++ '/' :: suf ∧ '/' ∉ suf ∧ suf ≠ []) := by
  cases h : strrchr url '/' with
  | none => exact Or.inl (strrchr_eq_none.mp h)
  | some i =>
    obtain ⟨h1, h2⟩ := strrchr_some h
    by_cases hd : url.drop (i + 1) = []
    · refine Or.inr (Or.inl ⟨url.take i, ?_⟩)
      rw [hd] at h1
      exact h1
    · exact Or.inr (Or.inr ⟨url.take i, url.drop (i + 1), h1, h2, hd⟩)

theorem extract_derived (c : Int) (pre suf : List Char) (h1 : '/' ∉ suf) (h2 : suf ≠ []) :
    extract_file_name c (pre ++ '/' :: suf) =
      (match strrchr suf '?' with
        | some question_mark => suf.take question_mark
        | none => suf, c) := by
  unfold extract_file_name
  rw [strrchr_append_cons pre suf '/' h1]
  have hd : (pre ++ '/' :: suf).drop (pre.length + 1) = suf := by
    rw [show pre ++ '/' :: suf = (pre ++ ['/']) ++ suf by simp]
    exact List.drop_left' (by simp)
  simp only [hd, ne_eq, h2, not_false_eq_true, if_true]
  cases strrchr suf '?' <;> rfl

theorem extract_no_slash (c : Int) (url : List Char) (h : '/' ∉ url) :
    extract_file_name c url = default_name c := by
  unfold extract_file_name
  rw [strrchr_eq_none.mpr h]

theorem extract_trailing_slash (c : Int) (pre : List Char) :
    extract_file_name c (pre ++ ['/']) = default_name c := by
  unfold extract_file_name
  rw [strrchr_append_cons pre [] '/' (by simp)]
  have hd : (pre ++ ['/']).drop (pre.length + 1) = [] := by simp
  simp [hd]

theorem no_name_of_no_slash (url : List Char) (h : '/' ∉ url) : no_name url = true := by
  simp [no_name, h]

theorem no_name_of_trailing_slash (pre : List Char) : no_name (pre ++ ['/']) = true := by
  simp [no_name]

theorem no_name_of_derived (pre suf : List Char) (h1 : '/' ∉ suf) (h2 : suf ≠ []) :
    no_name (pre ++ '/' :: suf) = false := by
  have hl : (pre ++ '/' :: suf).getLast? = some (suf.getLast h2) := by
    rw [show pre ++ '/' :: suf = (pre ++ ['/']) ++ suf by simp,
      List.getLast?_append_of_ne_nil _ h2, List.getLast?_eq_getLast _ h2]
  have hne : suf.getLast h2 ≠ '/' := fun e => h1 (e ▸ List.getLast_mem h2)
  simp [no_name, hl, hne]

theorem extract_of_no_name (c : Int) (url : List Char) (h : no_name url = true) :
    extract_file_name c url = default_name c := by
  rcases url_cases url with h1 | ⟨pre, rfl⟩ | ⟨pre, suf, rfl, h1, h2⟩
  · exact extract_no_slash c url h1
  · exact extract_trailing_slash c pre
  · rw [no_name_of_derived pre suf h1 h2] at h
    cases h

theorem extract_of_named (c : Int) (url : List Char) (h : no_name url = false) :
    (extract_file_name c url).2 = c := by
  rcases url_cases url with h1 | ⟨pre, rfl⟩ | ⟨pre, suf, rfl, h1, h2⟩
  · rw [no_name_of_no_slash url h1] at h
    cases h
  · rw [no_name_of_trailing_slash pre] at h
    cases h
  · rw [extract_derived c pre suf h1 h2]

theorem name_all_length (c : Int) (urls : List (List Char)) :
    (name_all c urls).1.length = urls.length := by
  induction urls generalizing c with
  | nil => rfl
  | cons u rest ih => simp [name_all, ih]

theorem name_all_append (c : Int) (a b : List (List Char)) :
    name_all c (a ++ b) =
      ((name_all c a).1 ++ (name_all (name_all c a).2 b).1, (name_all (name_all c a).2 b).2) := by
  induction a generalizing c with
  | nil => rfl
  | cons u rest ih => simp [name_all, ih]

theorem name_all_counter (urls : List (List Char)) (c : Nat)
    (h : ((c + (urls.filter no_name).length : Nat) : Int) ≤ INT_MAX) :
    (name_all (c : Int) urls).2 = ((c + (urls.filter no_name).length : Nat) : Int) := by
  induction urls generalizing c with
  | nil => simp [name_all]
  | cons u rest ih =>
    simp only [name_all]
    by_cases hu : no_name u = true
    · simp only [List.filter_cons, hu, if_true, List.length_cons] at h ⊢
      have hc : (c : Int) < INT_MAX := by push_cast at h ⊢; omega
      rw [extract_of_no_name _ u hu, default_name_eq (int_range_natCast c (le_of_lt hc))]
      simp only
      rw [int_incr_natCast c hc, ih (c + 1) (by push_cast at h ⊢; omega)]
      push_cast
      omega
    · simp only [Bool.not_eq_true] at hu
      simp only [List.filter_cons, hu, Bool.false_eq_true, if_false] at h ⊢
      rw [extract_of_named _ u hu]
      exact ih c h

theorem fallback_names_eq (urls : List (List Char)) (c : Nat)
    (h : ((c + (urls.filter no_name).length : Nat) : Int) ≤ INT_MAX) :
    fallback_names (c : Int) urls =
      (List.range' c (urls.filter no_name).length).map (fun (n : Nat) => File_txt (n : Int)) := by
  induction urls generalizing c with
  | nil => simp [fallback_names, name_all]
  | cons u rest ih =>
    by_cases hu : no_name u = true
    · simp only [List.filter_cons, hu, if_true, List.length_cons] at h ⊢
      have hc : (c : Int) < INT_MAX := by push_cast at h ⊢; omega
      have hrest := ih (c + 1) (by push_cast at h ⊢; omega)
      unfold fallback_names at hrest ⊢
      simp only [name_all, List.zip_cons_cons, List.filter_cons, hu, if_true, List.map_cons,
        List.range'_succ]
      rw [extract_of_no_name _ u hu, default_name_eq (int_range_natCast c (le_of_lt hc))]
      simp only
      rw [int_incr_natCast c hc, hrest]
    · simp only [Bool.not_eq_true] at hu
      simp only [List.filter_cons, hu, Bool.false_eq_true, if_false] at h ⊢
      have hrest := ih c h
      unfold fallback_names at hrest ⊢
      simp only [name_all, List.zip_cons_cons, List.filter_cons, hu, Bool.false_eq_true, if_false]
      rw [extract_of_named _ u hu, hrest]

/-! ## Facts about the queue -/

theorem claim_loop_past_end (urls : Queue) (fuel j : Nat) (h : urls.length ≤ j) :
    claim_loop urls fuel j = (none, urls) := by
  induction fuel generalizing j with
  | zero => rfl
  | succ fuel ih =>
    unfold claim_loop
    rw [List.getElem?_eq_none h]
    exact ih (j + 1) (by omega)

theorem claim_loop_eq (pre suf : Queue) (fuel : Nat) (h : suf.length ≤ fuel) :
    claim_loop (pre ++ suf) fuel pre.length = ((claim_first suf).1, pre ++ (claim_first suf).2) := by
  induction suf generalizing pre fuel with
  | nil => simpa [claim_first] using claim_loop_past_end pre fuel pre.length (le_refl _)
  | cons x rest ih =>
    cases fuel with
    | zero => simp at h
    | succ fuel =>
      unfold claim_loop
      have hx : (pre ++ x :: rest)[pre.length]? = some x := by
        rw [List.getElem?_append_right (le_refl _)]
        simp
      rw [hx]
      cases x with
      | none =>
        have := ih (pre ++ [none]) fuel (by simpa using h)
        simp only [List.append_assoc, List.singleton_append, List.length_append,
          List.length_singleton] at this
        simpa [claim_first] using this
      | some u => simp [claim_first]

theorem claim_eq (q : Queue) (h : q.length ≤ MAX_ARRAY) : claim q = claim_first q := by
  have := claim_loop_eq [] q MAX_ARRAY h
  simpa [claim] using this

theorem claim_first_fst (q : Queue) : (claim_first q).1 = (live q).head? := by
  induction q with
  | nil => rfl
  | cons x rest ih =>
    cases x with
    | none => simpa [claim_first, live] using ih
    | some u => simp [claim_first, live]

theorem claim_first_snd (q : Queue) : (claim_first q).2 = clear_first 1 q := by
  induction q with
  | nil => rfl
  | cons x rest ih =>
    cases x with
    | none => simp [claim_first, clear_first, ih]
    | some u => simp [claim_first, clear_first]

theorem clear_first_length (k : Nat) (q : Queue) : (clear_first k q).length = q.length := by
  induction q generalizing k with
  | nil => cases k <;> rfl
  | cons x rest ih =>
    cases k with
    | zero => rfl
    | succ k => cases x <;> simp [clear_first, ih]

theorem clear_first_live (k : Nat) (q : Queue) : live (clear_first k q) = (live q).drop k := by
  induction q generalizing k with
  | nil => cases k <;> simp [clear_first, live]
  | cons x rest ih =>
    cases k with
    | zero => simp [clear_first]
    | succ k =>
      cases x with
      | none =>
        have := ih (k + 1)
        simpa [clear_first, live] using this
      | some u =>
        have := ih k
        simpa [clear_first, live] using this

theorem clear_first_succ (k : Nat) (q : Queue) :
    clear_first k (clear_first 1 q) = clear_first (k + 1) q := by
  induction q generalizing k with
  | nil => cases k <;> rfl
  | cons x rest ih =>
    cases x with
    | none =>
      cases k with
      | zero => simp [clear_first]
      | succ k => simp [clear_first, ih]
    | some u =>
      cases k with
      | zero => simp [clear_first]
      | succ k => simp [clear_first]

theorem clear_first_add (a b : Nat) (q : Queue) :
    clear_first a (clear_first b q) = clear_first (b + a) q := by
  induction q generalizing a b with
  | nil => cases a <;> cases b <;> rfl
  | cons x rest ih =>
    cases b with
    | zero => simp [clear_first]
    | succ b =>
      cases a with
      | zero => simp [clear_first]
      | succ a =>
        rw [show b + 1 + (a + 1) = (b + 1 + a) + 1 by omega]
        cases x with
        | none =>
          simp only [clear_first]
          rw [ih (a + 1) (b + 1)]
          rfl
        | some u =>
          simp only [clear_first]
          rw [ih (a + 1) b, show b + (a + 1) = b + 1 + a by omega]

theorem clear_first_of_live_nil (k : Nat) (q : Queue) (h : live q = []) : clear_first k q = q := by
  induction q generalizing k with
  | nil => cases k <;> rfl
  | cons x rest ih =>
    cases x with
    | none =>
      cases k with
      | zero => rfl
      | succ k =>
        have hr : live rest = [] := by simpa [live] using h
        simp [clear_first, ih (k + 1) hr]
    | some u => simp [live] at h

theorem clear_first_all (k : Nat) (q : Queue) (h : (live q).length ≤ k) :
    clear_first k q = q.map (fun _ => none) := by
  induction q generalizing k with
  | nil => cases k <;> rfl
  | cons x rest ih =>
    cases x with
    | none =>
      have hr : (live rest).length ≤ k := by simpa [live] using h
      cases k with
      | zero =>
        have hnil : live rest = [] := List.eq_nil_of_length_eq_zero (by omega)
        have := ih 0 hr
        simp only [clear_first] at this ⊢
        simp [← this]
      | succ k => simp [clear_first, ih (k + 1) hr]
    | some u =>
      cases k with
      | zero => simp [live] at h
      | succ k =>
        have hr : (live rest).length ≤ k := by simpa [live] using h
        simp [clear_first, ih k hr]

theorem claim_of_live_nil (q : Queue) (hq : q.length ≤ MAX_ARRAY) (h : live q = []) :
    claim q = (none, q) := by
  rw [claim_eq q hq]
  apply Prod.ext
  · simp [claim_first_fst, h]
  · simp [claim_first_snd, clear_first_of_live_nil 1 q h]

theorem claim_of_live_cons (q : Queue) (hq : q.length ≤ MAX_ARRAY) (u : List Char)
    (us : List (List Char)) (h : live q = u :: us) :
    claim q = (some u, clear_first 1 q) := by
  rw [claim_eq q hq]
  apply Prod.ext
  · simp [claim_first_fst, h]
  · simp [claim_first_snd]

theorem claims_eq (workers : List Nat) (q : Queue) (hq : q.length ≤ MAX_ARRAY) :
    (claims workers q).1.map Prod.fst = workers ∧
    (claims workers q).1.map Prod.snd =
      ((live q).take workers.length).map some ++
        List.replicate (workers.length - (live q).length) none ∧
    (claims workers q).2 = clear_first workers.length q := by
  induction workers generalizing q with
  | nil => simp [claims, clear_first]
  | cons w ws ih =>
    have hq1 : (clear_first 1 q).length ≤ MAX_ARRAY := by rw [clear_first_length]; exact hq
    obtain ⟨ih1, ih2, ih3⟩ := ih (clear_first 1 q) hq1
    rw [clear_first_live, clear_first_succ] at *
    cases hl : live q with
    | nil =>
      have hc := claim_of_live_nil q hq hl
      have hq' : clear_first 1 q = q := clear_first_of_live_nil 1 q hl
      rw [hq'] at ih1 ih2 ih3
      rw [hl] at ih2
      simp only [claims, hc, List.map_cons, ih1, ih2, ih3, List.take_nil, List.map_nil,
        List.nil_append, List.length_nil, Nat.sub_zero, List.length_cons, List.replicate_succ,
        List.drop_nil, and_self, true_and]
    | cons u us =>
      have hc := claim_of_live_cons q hq u us hl
      rw [hl] at ih2
      simp only [claims, hc, List.map_cons, ih1, ih2, ih3, List.length_cons, List.take_succ_cons,
        List.cons_append, List.drop_succ_cons, List.drop_zero, Nat.add_sub_add_right, and_self]

/-! ## Facts about the worker -/

theorem live_replicate_none (n : Nat) : live (List.replicate n none) = [] := by
  induction n with
  | zero => rfl
  | succ n ih =>
    unfold live at ih
    simp [live, List.replicate_succ, ih]

theorem sample_queue_length : sample_queue.length = MAX_ARRAY := by
  simp only [sample_queue, List.length_cons, List.length_replicate, MAX_ARRAY]

theorem sample_queue_live :
    live sample_queue = ["https://a.com/x".toList, "https://b.com/y?v=1".toList] := by
  have h := live_replicate_none 997
  unfold live at h
  simp only [sample_queue, live, List.filterMap_cons, id_eq, h]

theorem clash_queue_length : clash_queue.length = MAX_ARRAY := by
  simp only [clash_queue, List.length_cons, List.length_replicate, MAX_ARRAY]

theorem clash_queue_live :
    live clash_queue = ["https://a.com/x".toList, "https://b.com/x".toList] := by
  have h := live_replicate_none 998
  unfold live at h
  simp only [clash_queue, live, List.filterMap_cons, id_eq, h]

theorem full_file_pathway_long (dir name : List Char) (h : 199 ≤ dir.length) :
    full_file_pathway dir name = dir.take 199 := by
  unfold full_file_pathway snprintf FULL_FILE_PATHWAY_SIZE
  exact List.take_append_of_le_length h

theorem fetch_attempts_append (a b : List Event) :
    fetch_attempts (a ++ b) = fetch_attempts a ++ fetch_attempts b := by
  induction a with
  | nil => rfl
  | cons e es ih => cases e <;> simp [fetch_attempts, ih]

theorem terminal_lines_append (a b : List Event) :
    terminal_lines (a ++ b) = terminal_lines a ++ terminal_lines b := by
  induction a with
  | nil => rfl
  | cons e es ih => cases e <;> simp [terminal_lines, ih]

theorem opened_paths_append (a b : List Event) :
    opened_paths (a ++ b) = opened_paths a ++ opened_paths b := by
  induction a with
  | nil => rfl
  | cons e es ih => cases e <;> simp [opened_paths, ih]

theorem fetch_attempts_run_trace (env : Nat → Env) (dir : List Char) (i : Nat) (c : Int)
    (us : List (List Char)) : fetch_attempts (run_trace env dir i c us) = us := by
  induction us generalizing i c with
  | nil => rfl
  | cons u us ih =>
    simp only [run_trace, fetch_attempts_append, ih]
    unfold terminal_line
    split <;> simp [fetch_attempts]

theorem opened_paths_run_trace (env : Nat → Env) (dir : List Char) (i : Nat) (c : Int)
    (us : List (List Char)) :
    opened_paths (run_trace env dir i c us) = (name_all c us).1.map (full_file_pathway dir) := by
  induction us generalizing i c with
  | nil => rfl
  | cons u us ih =>
    simp only [run_trace, opened_paths_append, ih, name_all, List.map_cons]
    unfold terminal_line
    split <;> simp [opened_paths]

theorem terminal_lines_run_trace (env : Nat → Env) (dir : List Char) (i : Nat) (c : Int)
    (us : List (List Char)) :
    terminal_lines (run_trace env dir i c us) =
      List.zipWith (fun k p =>
          if (env k).res = 0 then Event.downloaded p.2 (env k).hour (env k).min (env k).sec
          else Event.download_failed p.1 (env k).res)
        (List.range' i us.length) (us.zip (name_all c us).1) := by
  induction us generalizing i c with
  | nil => rfl
  | cons u us ih =>
    simp only [run_trace, terminal_lines_append, ih, name_all, List.length_cons,
      List.range'_succ, List.zip_cons_cons, List.zipWith_cons_cons]
    unfold terminal_line
    by_cases hres : (env i).res = 0 <;> simp [hres, terminal_lines]

theorem live_cons_of_le {q : Queue} {k : Nat} (h : k + 1 ≤ (live q).length) :
    ∃ u us, live q = u :: us := by
  cases hl : live q with
  | nil => rw [hl] at h; simp at h
  | cons u us => exact ⟨u, us, rfl⟩

theorem Download_file_step_ok (env : Nat → Env) (dir : List Char) (fuel i : Nat) (q q1 : Queue)
    (c : Int) (tr : List Event) (u : List Char) (hclaim : claim q = (some u, q1))
    (hf : (env i).fopen_ok = true) (hs : (env i).curl_ok = true) :
    Download_file env dir (fuel + 1) i { urls := q, default_file_num := c, trace := tr } =
      Download_file env dir fuel (i + 1)
        { urls := q1, default_file_num := (extract_file_name c u).2,
          trace := tr ++ [Event.fopen (full_file_pathway dir (extract_file_name c u).1) true,
            Event.perform u (env i).res, terminal_line (env i) u (extract_file_name c u).1] } := by
  rw [Download_file]
  simp only [hclaim, hf, hs, Bool.true_eq_false, if_false]

theorem Download_file_step_empty (env : Nat → Env) (dir : List Char) (fuel i : Nat) (q : Queue)
    (c : Int) (tr : List Event) (hclaim : claim q = (none, q)) :
    Download_file env dir (fuel + 1) i { urls := q, default_file_num := c, trace := tr } =
      some { urls := q, default_file_num := c, trace := tr } := by
  rw [Download_file]
  simp only [hclaim]

theorem Download_file_step_fopen (env : Nat → Env) (dir : List Char) (fuel i : Nat)
    (q q1 : Queue) (c : Int) (tr : List Event) (u : List Char)
    (hclaim : claim q = (some u, q1)) (hf : (env i).fopen_ok = false) :
    Download_file env dir (fuel + 1) i { urls := q, default_file_num := c, trace := tr } =
      some { urls := q1, default_file_num := (extract_file_name c u).2,
             trace := tr ++ [Event.fopen (full_file_pathway dir (extract_file_name c u).1) false,
               Event.perror_fopen] } := by
  rw [Download_file]
  simp only [hclaim, hf, if_true]

/-- The first `k` iterations of a worker, when each creates its file and its session. -/
theorem Download_file_prefix (env : Nat → Env) (dir : List Char) (k : Nat) :
    ∀ (q : Queue) (i : Nat) (c : Int) (tr : List Event) (fuel : Nat),
      q.length ≤ MAX_ARRAY → k ≤ (live q).length →
      (∀ j, j < k → (env (i + j)).fopen_ok = true ∧ (env (i + j)).curl_ok = true) →
      Download_file env dir (fuel + k) i { urls := q, default_file_num := c, trace := tr } =
        Download_file env dir fuel (i + k)
          { urls := clear_first k q,
            default_file_num := (name_all c ((live q).take k)).2,
            trace := tr ++ run_trace env dir i c ((live q).take k) } := by
  induction k with
  | zero =>
    intro q i c tr fuel _ _ _
    simp [clear_first, name_all, run_trace]
  | succ k ih =>
    intro q i c tr fuel hq hk hok
    obtain ⟨u, us, hl⟩ := live_cons_of_le hk
    have hclaim := claim_of_live_cons q hq u us hl
    have h0 := hok 0 (by omega)
    simp only [Nat.add_zero] at h0
    have hq1 : (clear_first 1 q).length ≤ MAX_ARRAY := by rw [clear_first_length]; exact hq
    have hl1 : live (clear_first 1 q) = us := by rw [clear_first_live, hl]; rfl
    have hk1 : k ≤ (live (clear_first 1 q)).length := by
      rw [hl1]; rw [hl] at hk; simpa using hk
    have hok1 : ∀ j, j < k →
        (env (i + 1 + j)).fopen_ok = true ∧ (env (i + 1 + j)).curl_ok = true := by
      intro j hj
      have := hok (j + 1) (by omega)
      rwa [show i + (j + 1) = i + 1 + j by omega] at this
    have hrec := ih (clear_first 1 q) (i + 1) (extract_file_name c u).2
      (tr ++ [Event.fopen (full_file_pathway dir (extract_file_name c u).1) true,
        Event.perform u (env i).res, terminal_line (env i) u (extract_file_name c u).1])
      fuel hq1 hk1 hok1
    rw [show fuel + (k + 1) = fuel + k + 1 by omega,
      Download_file_step_ok env dir (fuel + k) i q _ c tr u hclaim h0.1 h0.2]
    rw [hrec, clear_first_succ, hl1, hl]
    simp only [List.take_succ_cons, name_all, run_trace, List.append_assoc]
    rw [show i + 1 + k = i + (k + 1) by omega]

/-- A worker whose files and sessions are all created runs through the whole queue. -/
theorem Download_file_all (q : Queue) (hq : q.length = MAX_ARRAY) (env : Nat → Env)
    (dir : List Char) (c : Int)
    (hok : ∀ k, k < (live q).length → (env k).fopen_ok = true ∧ (env k).curl_ok = true)
    (fuel : Nat) (hfuel : (live q).length < fuel) :
    Download_file env dir fuel 0 { urls := q, default_file_num := c, trace := [] } =
      some { urls := List.replicate MAX_ARRAY none,
             default_file_num := (name_all c (live q)).2,
             trace := run_trace env dir 0 c (live q) } := by
  obtain ⟨f, rfl⟩ : ∃ f, fuel = f + 1 + (live q).length := ⟨fuel - 1 - (live q).length, by omega⟩
  have hpre := Download_file_prefix env dir (live q).length q 0 c [] (f + 1) (le_of_eq hq)
    (le_refl _) (by simpa using hok)
  rw [hpre]
  have hlen : (clear_first (live q).length q).length ≤ MAX_ARRAY := by
    rw [clear_first_length]; exact le_of_eq hq
  have hnil : live (clear_first (live q).length q) = [] := by
    rw [clear_first_live]; exact List.drop_eq_nil_of_le (le_refl _)
  rw [Download_file_step_empty env dir f _ _ _ _ (claim_of_live_nil _ hlen hnil)]
  rw [clear_first_all _ q (le_refl _), List.take_length]
  simp [← hq]

/-- A worker stops at the first iteration whose `fopen` fails. -/
theorem Download_file_fopen_fails (q : Queue) (hq : q.length = MAX_ARRAY) (env : Nat → Env)
    (dir : List Char) (c : Int) (k : Nat) (u : List Char) (hu : (live q)[k]? = some u)
    (hok : ∀ j, j < k → (env j).fopen_ok = true ∧ (env j).curl_ok = true)
    (hfail : (env k).fopen_ok = false) (fuel : Nat) (hfuel : k < fuel) :
    Download_file env dir fuel 0 { urls := q, default_file_num := c, trace := [] } =
      some { urls := clear_first (k + 1) q,
             default_file_num :=
               (extract_file_name (name_all c ((live q).take k)).2 u).2,
             trace := run_trace env dir 0 c ((live q).take k) ++
               [Event.fopen (full_file_pathway dir
                  (extract_file_name (name_all c ((live q).take k)).2 u).1) false,
                Event.perror_fopen] } := by
  obtain ⟨f, rfl⟩ : ∃ f, fuel = f + 1 + k := ⟨fuel - 1 - k, by omega⟩
  have hk : k < (live q).length := by
    by_contra hcon
    rw [List.getElem?_eq_none (by omega)] at hu
    cases hu
  have hpre := Download_file_prefix env dir k q 0 c [] (f + 1) (le_of_eq hq)
    (le_of_lt hk) (by simpa using hok)
  rw [hpre]
  have hlen : (clear_first k q).length ≤ MAX_ARRAY := by
    rw [clear_first_length]; exact le_of_eq hq
  have hlive : live (clear_first k q) = u :: (live q).drop (k + 1) := by
    rw [clear_first_live, List.drop_eq_getElem_cons hk]
    rw [List.getElem?_eq_getElem hk] at hu
    simp only [Option.some.injEq] at hu
    rw [hu]
  have hclaim := claim_of_live_cons _ hlen u _ hlive
  simp only [Nat.zero_add, List.nil_append] at hfail ⊢
  rw [Download_file_step_fopen env dir f k _ _ _ _ u hclaim hfail, clear_first_add]

theorem three_queue_length : three_queue.length = MAX_ARRAY := by
  simp only [three_queue, List.length_cons, List.length_replicate, MAX_ARRAY]

theorem three_queue_live :
    live three_queue =
      ["https://a.com/x".toList, "https://b.com/x".toList, "https://c.com/y".toList] := by
  have h := live_replicate_none 997
  unfold live at h
  simp only [three_queue, live, List.filterMap_cons, id_eq, h]

theorem name_all_fst_take (c : Int) (us : List (List Char)) (k : Nat) :
    (name_all c (us.take k)).1 = (name_all c us).1.take k := by
  induction us generalizing c k with
  | nil => simp [name_all]
  | cons u us ih =>
    cases k with
    | zero => simp [name_all]
    | succ k => simp [name_all, ih]

theorem name_all_getElem? (c : Int) (us : List (List Char)) (k : Nat) (hk : k < us.length) :
    (name_all c us).1[k]? =
      some (extract_file_name (name_all c (us.take k)).2 us[k]).1 := by
  induction us generalizing c k with
  | nil => simp at hk
  | cons u us ih =>
    cases k with
    | zero => simp [name_all]
    | succ k =>
      have hk1 : k < us.length := by simpa using hk
      simpa [name_all] using ih (extract_file_name c u).2 k hk1

theorem Download_file_step_curl (env : Nat → Env) (dir : List Char) (fuel i : Nat)
    (q q1 : Queue) (c : Int) (tr : List Event) (u : List Char)
    (hclaim : claim q = (some u, q1)) (hf : (env i).fopen_ok = true)
    (hs : (env i).curl_ok = false) :
    Download_file env dir (fuel + 1) i { urls := q, default_file_num := c, trace := tr } =
      some { urls := q1, default_file_num := (extract_file_name c u).2,
             trace := tr ++ [Event.fopen (full_file_pathway dir (extract_file_name c u).1) true,
               Event.curl_init_error] } := by
  rw [Download_file]
  simp only [hclaim, hf, hs, Bool.true_eq_false, if_false, if_true]

/-- A worker stops at the first iteration whose file is created and whose session is not. -/
theorem Download_file_curl_fails (q : Queue) (hq : q.length = MAX_ARRAY) (env : Nat → Env)
    (dir : List Char) (c : Int) (k : Nat) (u : List Char) (hu : (live q)[k]? = some u)
    (hok : ∀ j, j < k → (env j).fopen_ok = true ∧ (env j).curl_ok = true)
    (hf : (env k).fopen_ok = true) (hs : (env k).curl_ok = false)
    (fuel : Nat) (hfuel : k < fuel) :
    Download_file env dir fuel 0 { urls := q, default_file_num := c, trace := [] } =
      some { urls := clear_first (k + 1) q,
             default_file_num :=
               (extract_file_name (name_all c ((live q).take k)).2 u).2,
             trace := run_trace env dir 0 c ((live q).take k) ++
               [Event.fopen (full_file_pathway dir
                  (extract_file_name (name_all c ((live q).take k)).2 u).1) true,
                Event.curl_init_error] } := by
  obtain ⟨f, rfl⟩ : ∃ f, fuel = f + 1 + k := ⟨fuel - 1 - k, by omega⟩
  have hk : k < (live q).length := by
    by_contra hcon
    rw [List.getElem?_eq_none (by omega)] at hu
    cases hu
  have hpre := Download_file_prefix env dir k q 0 c [] (f + 1) (le_of_eq hq)
    (le_of_lt hk) (by simpa using hok)
  rw [hpre]
  have hlen : (clear_first k q).length ≤ MAX_ARRAY := by
    rw [clear_first_length]; exact le_of_eq hq
  have hlive : live (clear_first k q) = u :: (live q).drop (k + 1) := by
    rw [clear_first_live, List.drop_eq_getElem_cons hk]
    rw [List.getElem?_eq_getElem hk] at hu
    simp only [Option.some.injEq] at hu
    rw [hu]
  have hclaim := claim_of_live_cons _ hlen u _ hlive
  simp only [Nat.zero_add, List.nil_append] at hf hs ⊢
  rw [Download_file_step_curl env dir f k _ _ _ _ u hclaim hf hs, clear_first_add]

theorem opened_paths_stop (env : Nat → Env) (dir : List Char) (c : Int)
    (us : List (List Char)) (k : Nat) (hk : k < us.length) (ok : Bool) (e : Event)
    (he : opened_paths [e] = []) :
    opened_paths (run_trace env dir 0 c (us.take k) ++
        [Event.fopen (full_file_pathway dir
          (extract_file_name (name_all c (us.take k)).2 us[k]).1) ok, e]) =
      ((name_all c us).1.take (k + 1)).map (full_file_pathway dir) := by
  have hsplit : [Event.fopen (full_file_pathway dir
      (extract_file_name (name_all c (us.take k)).2 us[k]).1) ok, e] =
      [Event.fopen (full_file_pathway dir
        (extract_file_name (name_all c (us.take k)).2 us[k]).1) ok] ++ [e] := rfl
  rw [hsplit, opened_paths_append, opened_paths_append, he, opened_paths_run_trace,
    name_all_fst_take, List.take_succ, name_all_getElem? c us k hk]
  simp [opened_paths]

/-- The paths a worker opens, whatever the environment answers: the paths built from the
names of the first `m` URLs, `m` being the number of URLs when everything is created. -/
theorem Download_file_opened (q : Queue) (hq : q.length = MAX_ARRAY) (env : Nat → Env)
    (dir : List Char) (c : Int) (fuel : Nat) (hfuel : (live q).length < fuel) :
    ∃ w m, Download_file env dir fuel 0 { urls := q, default_file_num := c, trace := [] }
        = some w ∧
      m ≤ (live q).length ∧
      opened_paths w.trace = ((name_all c (live q)).1.take m).map (full_file_pathway dir) ∧
      ((∀ k, k < (live q).length → (env k).fopen_ok = true ∧ (env k).curl_ok = true) →
        m = (live q).length) := by
  by_cases hall : ∀ k, k < (live q).length → (env k).fopen_ok = true ∧ (env k).curl_ok = true
  · refine ⟨_, (live q).length, Download_file_all q hq env dir c hall fuel hfuel, le_refl _,
      ?_, fun _ => rfl⟩
    rw [opened_paths_run_trace, List.take_of_length_le (by rw [name_all_length])]
  · have hex : ∃ k, k < (live q).length ∧
        ¬ ((env k).fopen_ok = true ∧ (env k).curl_ok = true) := by
      by_contra hcon
      apply hall
      intro k hk
      by_contra hk2
      exact hcon ⟨k, hk, hk2⟩
    classical
    have hmin : ∀ j, j < Nat.find hex →
        ¬ (j < (live q).length ∧ ¬ ((env j).fopen_ok = true ∧ (env j).curl_ok = true)) :=
      fun j hj => Nat.find_min hex hj
    obtain ⟨hk, hbad⟩ := Nat.find_spec hex
    generalize Nat.find hex = k at hmin hk hbad
    have hok : ∀ j, j < k → (env j).fopen_ok = true ∧ (env j).curl_ok = true := by
      intro j hj
      by_contra hj2
      exact hmin j hj ⟨by omega, hj2⟩
    cases hf : (env k).fopen_ok with
    | false =>
      refine ⟨_, k + 1, Download_file_fopen_fails q hq env dir c k (live q)[k]
        (List.getElem?_eq_getElem hk) hok hf fuel (by omega), hk, ?_,
        fun h => absurd h hall⟩
      exact opened_paths_stop env dir c (live q) k hk false Event.perror_fopen rfl
    | true =>
      have hs : (env k).curl_ok = false := by
        cases hs : (env k).curl_ok with
        | false => rfl
        | true => exact absurd ⟨hf, hs⟩ hbad
      refine ⟨_, k + 1, Download_file_curl_fails q hq env dir c k (live q)[k]
        (List.getElem?_eq_getElem hk) hok hf hs fuel (by omega), hk, ?_,
        fun h => absurd h hall⟩
      exact opened_paths_stop env dir c (live q) k hk true Event.curl_init_error rfl

/-! ## The claims -/

/-- C1: on a queue of `MAX_ARRAY` slots holding `N` live entries, any sequence of claims
(the `k`-th issued by worker `workers[k]`) returns the live entries in increasing slot order,
one per claim, to the first `N` claims and empty to every later claim; after `k` claims exactly
the first `k` live slots are emptied, and a claim made after the `N`-th leaves the queue as it
is. -/
theorem claims_exactly_once (q : Queue) (hq : q.length = MAX_ARRAY) (workers : List Nat) :
    (claims workers q).1.map Prod.fst = workers ∧
    (claims workers q).1.map Prod.snd =
      ((live q).take workers.length).map some ++
        List.replicate (workers.length - (live q).length) none ∧
    (claims workers q).2 = clear_first workers.length q ∧
    (∀ i, (live q).length ≤ i → i ≤ workers.length →
      claim (claims (workers.take i) q).2 = (none, (claims (workers.take i) q).2)) := by
  obtain ⟨h1, h2, h3⟩ := claims_eq workers q (le_of_eq hq)
  refine ⟨h1, h2, h3, ?_⟩
  intro i hi hw
  obtain ⟨_, _, h3'⟩ := claims_eq (workers.take i) q (le_of_eq hq)
  rw [h3']
  apply claim_of_live_nil
  · rw [clear_first_length]; exact le_of_eq hq
  · rw [clear_first_live, List.length_take, Nat.min_eq_left hw]
    exact List.drop_eq_nil_of_le hi

/-- Witness of C1: four claims by three workers on a queue with two live slots. -/
theorem claims_exactly_once_witness :
    (claims [0, 1, 0, 2] sample_queue).1.map Prod.snd =
      [some "https://a.com/x".toList, some "https://b.com/y?v=1".toList, none, none] := by
  have h := (claims_exactly_once sample_queue sample_queue_length [0, 1, 0, 2]).2.1
  rw [sample_queue_live] at h
  exact h

/-- C2: a URL with a `/`, at least one character after its final `/` and no `?` after it is
named by exactly the text after the final `/`, the counter unchanged; a URL with no `/` or
with nothing after its final `/` is named `File_<n>.txt`, `n` the value of the counter. -/
theorem extract_file_name_derived_or_default (c : Int) (hc : int_range c) (url : List Char) :
    (∀ pre suf, url = pre ++ '/' :: suf → '/' ∉ suf → suf ≠ [] → '?' ∉ suf →
        extract_file_name c url = (suf, c)) ∧
    (('/' ∉ url ∨ ∃ pre, url = pre ++ ['/']) →
        (extract_file_name c url).1 = "File_".toList ++ fmt_d c ++ ".txt".toList) := by
  constructor
  · intro pre suf hurl h1 h2 h3
    rw [hurl, extract_derived c pre suf h1 h2, strrchr_eq_none.mpr h3]
  · intro h
    rcases h with h | ⟨pre, rfl⟩
    · rw [extract_no_slash c url h, default_name_eq hc]
      rfl
    · rw [extract_trailing_slash c pre, default_name_eq hc]
      rfl

/-- Witness of C2 at `https://x.com/a/report.pdf` and at `https://x.com/`. -/
theorem extract_file_name_derived_or_default_witness :
    extract_file_name 0 "https://x.com/a/report.pdf".toList = ("report.pdf".toList, 0) ∧
    (extract_file_name 0 "https://x.com/".toList).1 = "File_0.txt".toList :=
  ⟨(extract_file_name_derived_or_default 0 (by decide) "https://x.com/a/report.pdf".toList).1
      "https://x.com/a".toList "report.pdf".toList (by decide) (by decide) (by decide)
      (by decide),
   (extract_file_name_derived_or_default 0 (by decide) "https://x.com/".toList).2
      (Or.inr ⟨"https://x.com".toList, by decide⟩)⟩

/-- C3: at the URL `https://x.com/?q=1`, whose final `/` is immediately followed by `?`, the
name returned by `extract_file_name` is empty, whatever the counter. -/
theorem extract_file_name_empty_name (c : Int) :
    extract_file_name c "https://x.com/?q=1".toList = ([], c) := by
  rfl

/-- C4: at the URL `https://x.com/a/report.pdf?v=1?token=2`, whose candidate name holds two
`?`, `extract_file_name` cuts at the last `?` and returns `report.pdf?v=1`, which holds a `?`. -/
theorem extract_file_name_keeps_question_mark (c : Int) :
    extract_file_name c "https://x.com/a/report.pdf?v=1?token=2".toList
        = ("report.pdf?v=1".toList, c) ∧
      '?' ∈ (extract_file_name c "https://x.com/a/report.pdf?v=1?token=2".toList).1 := by
  constructor
  · rfl
  · show '?' ∈ "report.pdf?v=1".toList
    decide

/-- C5: sequential calls of `extract_file_name` from `default_file_num = 0`: before the call on
the `k`-th URL the counter is the number of earlier URLs with no discernible name; a URL with no
discernible name receives `File_<counter>.txt` and raises the counter by one, any other URL
leaves it unchanged; so the fallback names are `File_0.txt ... File_{M-1}.txt`, pairwise
distinct. -/
theorem sequential_fallback_names (urls : List (List Char))
    (hM : ((urls.filter no_name).length : Int) ≤ INT_MAX) :
    (∀ k (hk : k < urls.length),
        (name_all 0 (urls.take k)).2 = (((urls.take k).filter no_name).length : Int) ∧
        (name_all 0 urls).1[k]? =
          some (extract_file_name (((urls.take k).filter no_name).length : Int) urls[k]).1 ∧
        (no_name urls[k] = true →
          extract_file_name (((urls.take k).filter no_name).length : Int) urls[k] =
            ("File_".toList ++ fmt_d (((urls.take k).filter no_name).length : Int)
                ++ ".txt".toList,
              (((urls.take k).filter no_name).length : Int) + 1)) ∧
        (no_name urls[k] = false →
          (extract_file_name (((urls.take k).filter no_name).length : Int) urls[k]).2 =
            (((urls.take k).filter no_name).length : Int))) ∧
    fallback_names 0 urls =
      (List.range (urls.filter no_name).length).map
        (fun (n : Nat) => "File_".toList ++ fmt_d (n : Int) ++ ".txt".toList) ∧
    (fallback_names 0 urls).Nodup := by
  have hnames : fallback_names 0 urls =
      (List.range (urls.filter no_name).length).map (fun (n : Nat) => File_txt (n : Int)) := by
    have := fallback_names_eq urls 0 (by simpa using hM)
    rw [List.range_eq_range']
    simpa using this
  refine ⟨?_, hnames, ?_⟩
  · intro k hk
    have hsplit : urls = urls.take k ++ urls[k] :: urls.drop (k + 1) := by
      rw [← List.drop_eq_getElem_cons hk, List.take_append_drop]
    have hle : ((urls.take k).filter no_name).length + (if no_name urls[k] = true then 1 else 0)
        ≤ (urls.filter no_name).length := by
      conv_rhs => rw [hsplit]
      simp only [List.filter_append, List.length_append, List.filter_cons]
      split <;> simp
    have hcount : (name_all 0 (urls.take k)).2 = (((urls.take k).filter no_name).length : Int) := by
      have := name_all_counter (urls.take k) 0 (by
        unfold INT_MAX at hM ⊢
        push_cast
        omega)
      simpa using this
    refine ⟨hcount, ?_, ?_, ?_⟩
    · conv_lhs => rw [hsplit, name_all_append, hcount]
      have hlen : (name_all 0 (urls.take k)).1.length = k := by
        rw [name_all_length, List.length_take]
        omega
      simp only
      rw [List.getElem?_append_right (by omega), hlen]
      simp [name_all]
    · intro hu
      simp only [hu, if_true] at hle
      have hc : ((((urls.take k).filter no_name).length : Nat) : Int) < INT_MAX := by
        unfold INT_MAX at hM ⊢
        omega
      rw [extract_of_no_name _ _ hu, default_name_eq (int_range_natCast _ (le_of_lt hc)),
        int_incr_natCast _ hc]
      simp [File_txt]
    · intro hu
      exact extract_of_named _ _ hu
  · rw [hnames]
    refine List.Nodup.map_on ?_ (List.nodup_range _)
    intro a _ b _ hab
    exact File_txt_natCast_injective hab

/-- Witness of C5 on four URLs, two of them with no discernible name. -/
theorem sequential_fallback_names_witness :
    fallback_names 0 ["https://x.com/".toList, "https://x.com/a.txt".toList, "plain".toList,
        "https://y.com/b".toList]
      = (List.range 2).map (fun (n : Nat) => "File_".toList ++ fmt_d (n : Int) ++ ".txt".toList) :=
  (sequential_fallback_names ["https://x.com/".toList, "https://x.com/a.txt".toList,
    "plain".toList, "https://y.com/b".toList] (by decide)).2.1

/-- C6: two concurrent callers of the fallback branch, each stepping through lock, format,
unlock, increment: under the schedule in which caller 0 locks, formats and unlocks, then caller
1 does the same and increments, then caller 0 increments, caller 0 is about to increment while
`count_mutex` is free, and both callers return `File_0.txt`. -/
theorem concurrent_fallback_names_collide :
    (run_schedule (start 2) [0, 0, 0]).map (fun s => (s.count_mutex, s.callers.map Caller.pc))
      = some (none, [Pc.incr, Pc.lock]) ∧
    run_schedule (start 2) [0, 0, 0, 1, 1, 1, 1, 0] =
      some { count_mutex := none, default_file_num := 2,
             callers := [{ pc := Pc.done, name := some "File_0.txt".toList },
                         { pc := Pc.done, name := some "File_0.txt".toList }] } := by
  decide

/-- C7: one worker on a queue of `N` live URLs, every file and every session being created,
whatever the fetch results: for any fuel above `N` the worker terminates, it has called
`curl_easy_perform` exactly once per URL in slot order, it has printed one terminal line per
URL (`Downloaded <name>` when the result is `CURLE_OK`, `Download failed for <url>` otherwise)
and every slot of the queue is `NULL`. -/
theorem worker_attempts_every_url (q : Queue) (hq : q.length = MAX_ARRAY) (env : Nat → Env)
    (dir : List Char) (c : Int)
    (hok : ∀ k, k < (live q).length → (env k).fopen_ok = true ∧ (env k).curl_ok = true)
    (fuel : Nat) (hfuel : (live q).length < fuel) :
    ∃ w, Download_file env dir fuel 0 { urls := q, default_file_num := c, trace := [] } = some w ∧
      fetch_attempts w.trace = live q ∧
      terminal_lines w.trace =
        List.zipWith (fun k p =>
            if (env k).res = 0 then Event.downloaded p.2 (env k).hour (env k).min (env k).sec
            else Event.download_failed p.1 (env k).res)
          (List.range (live q).length) ((live q).zip (name_all c (live q)).1) ∧
      (terminal_lines w.trace).length = (live q).length ∧
      w.urls = List.replicate MAX_ARRAY none := by
  have hlines := terminal_lines_run_trace env dir 0 c (live q)
  rw [← List.range_eq_range'] at hlines
  refine ⟨_, Download_file_all q hq env dir c hok fuel hfuel, ?_, hlines, ?_, rfl⟩
  · exact fetch_attempts_run_trace env dir 0 c (live q)
  · simp only [hlines, List.length_zipWith, List.length_range, List.length_zip,
      name_all_length, Nat.min_self]

/-- Witness of C7: two URLs, the second fetch failing with code 6. -/
theorem worker_attempts_every_url_witness :
    ∃ w, Download_file sample_env ".".toList 3 0
        { urls := sample_queue, default_file_num := 0, trace := [] } = some w ∧
      fetch_attempts w.trace = ["https://a.com/x".toList, "https://b.com/y?v=1".toList] ∧
      terminal_lines w.trace =
        [Event.downloaded "x".toList 12 0 0,
         Event.download_failed "https://b.com/y?v=1".toList 6] ∧
      (terminal_lines w.trace).length = 2 ∧
      w.urls = List.replicate MAX_ARRAY none := by
  have h := worker_attempts_every_url sample_queue sample_queue_length sample_env ".".toList 0
    (fun k _ => ⟨rfl, rfl⟩) 3 (by rw [sample_queue_live]; decide)
  rw [sample_queue_live] at h
  exact h

/-- C8: when the `fopen` of iteration `k` fails (the earlier iterations having created their
files and sessions), the worker reports `fopen failed` and returns: it has fetched only the
first `k` URLs, and the URLs after the failing one are still live in the queue. -/
theorem worker_returns_when_fopen_fails (q : Queue) (hq : q.length = MAX_ARRAY)
    (env : Nat → Env) (dir : List Char) (c : Int) (k : Nat) (hk : k < (live q).length)
    (hok : ∀ j, j < k → (env j).fopen_ok = true ∧ (env j).curl_ok = true)
    (hfail : (env k).fopen_ok = false) (fuel : Nat) (hfuel : k < fuel) :
    ∃ w, Download_file env dir fuel 0 { urls := q, default_file_num := c, trace := [] } = some w ∧
      w.trace.getLast? = some Event.perror_fopen ∧
      fetch_attempts w.trace = (live q).take k ∧
      live w.urls = (live q).drop (k + 1) := by
  refine ⟨_, Download_file_fopen_fails q hq env dir c k (live q)[k]
    (List.getElem?_eq_getElem hk) hok hfail fuel hfuel, ?_, ?_, ?_⟩
  · simp
  · simp [fetch_attempts_append, fetch_attempts_run_trace, fetch_attempts]
  · exact clear_first_live (k + 1) q

/-- Witness of C8: the first of two URLs cannot be opened, the second is never attempted. -/
theorem worker_returns_when_fopen_fails_witness :
    ∃ w, Download_file fopen_fails_env ".".toList 3 0
        { urls := sample_queue, default_file_num := 0, trace := [] } = some w ∧
      w.trace.getLast? = some Event.perror_fopen ∧
      fetch_attempts w.trace = [] ∧
      live w.urls = ["https://b.com/y?v=1".toList] := by
  have h := worker_returns_when_fopen_fails sample_queue sample_queue_length fopen_fails_env
    ".".toList 0 0 (by rw [sample_queue_live]; decide) (fun j hj => absurd hj (Nat.not_lt_zero j))
    rfl 3 (by decide)
  rw [sample_queue_live] at h
  exact h

/-- C9, as stated, fails: the two distinct URLs `https://a.com/x` and `https://b.com/x`, seeded
in one run with destination directory `.`, are both opened at the path `./x`; and with a
destination directory of 199 characters the paths built for `https://a.com/x` and
`https://a.com/y` are both cut down to the directory itself. -/
theorem distinct_urls_same_path :
    ("https://a.com/x".toList ≠ "https://b.com/x".toList ∧
      ∃ w, Download_file sample_env ".".toList 3 0
          { urls := clash_queue, default_file_num := 0, trace := [] } = some w ∧
        opened_paths w.trace = ["./x".toList, "./x".toList]) ∧
    ((extract_file_name 0 "https://a.com/x".toList).1
        ≠ (extract_file_name 0 "https://a.com/y".toList).1 ∧
      full_file_pathway (List.replicate 199 'd') (extract_file_name 0 "https://a.com/x".toList).1
        = full_file_pathway (List.replicate 199 'd')
            (extract_file_name 0 "https://a.com/y".toList).1) := by
  refine ⟨⟨by decide, _, Download_file_all clash_queue clash_queue_length sample_env
    ".".toList 0 (fun k _ => ⟨rfl, rfl⟩) 3 (by rw [clash_queue_live]; decide), ?_⟩,
    by decide, ?_⟩
  · rw [opened_paths_run_trace, clash_queue_live]
    decide
  · have hlen : 199 ≤ (List.replicate 199 'd').length := le_of_eq (List.length_replicate _ _).symm
    rw [full_file_pathway_long _ _ hlen, full_file_pathway_long _ _ hlen]

/-- C9, amended: one worker on any queue, whatever the environment answers.  The worker
opens the first 199 characters of `file_pathway ++ "/" ++ name` for the first `m` URLs in slot
order (all of them when every file and session is created), `name` being what
`extract_file_name` returns for that URL at the counter reached so far, which for a URL whose
text after the final `/` is non-empty and holds no `?` is that text.  For every two of these
URLs: equal names give equal paths; different names whose `file_pathway ++ "/" ++ name` are
both shorter than the 200-byte buffer give exactly these two paths, which are different. -/
theorem opened_paths_pairwise (q : Queue) (hq : q.length = MAX_ARRAY) (env : Nat → Env)
    (dir : List Char) (c : Int) (fuel : Nat) (hfuel : (live q).length < fuel) :
    ∃ w m, Download_file env dir fuel 0 { urls := q, default_file_num := c, trace := [] }
        = some w ∧
      m ≤ (live q).length ∧
      ((∀ k, k < (live q).length → (env k).fopen_ok = true ∧ (env k).curl_ok = true) →
        m = (live q).length) ∧
      (opened_paths w.trace).length = m ∧
      (∀ k (hk : k < (live q).length),
        (name_all c (live q)).1[k]? =
          some (extract_file_name (name_all c ((live q).take k)).2 (live q)[k]).1) ∧
      (∀ (k : Nat) (pre suf : List Char), (live q)[k]? = some (pre ++ '/' :: suf) → '/' ∉ suf → suf ≠ [] →
        '?' ∉ suf → (name_all c (live q)).1[k]? = some suf) ∧
      (∀ (k : Nat) (n : List Char), k < m → (name_all c (live q)).1[k]? = some n →
        (opened_paths w.trace)[k]? = some ((dir ++ '/' :: n).take 199)) ∧
      (∀ (i j : Nat), i < m → j < m →
        (name_all c (live q)).1[i]? = (name_all c (live q)).1[j]? →
        (opened_paths w.trace)[i]? = (opened_paths w.trace)[j]?) ∧
      (∀ (i j : Nat) (ni nj : List Char), i < m → j < m →
        (name_all c (live q)).1[i]? = some ni → (name_all c (live q)).1[j]? = some nj →
        ni ≠ nj →
        dir.length + 1 + ni.length < FULL_FILE_PATHWAY_SIZE →
        dir.length + 1 + nj.length < FULL_FILE_PATHWAY_SIZE →
        (opened_paths w.trace)[i]? = some (dir ++ '/' :: ni) ∧
        (opened_paths w.trace)[j]? = some (dir ++ '/' :: nj) ∧
        (opened_paths w.trace)[i]? ≠ (opened_paths w.trace)[j]?) := by
  obtain ⟨w, m, hrun, hm, hopen, hall⟩ := Download_file_opened q hq env dir c fuel hfuel
  have hget : ∀ k, k < m →
      (opened_paths w.trace)[k]? =
        ((name_all c (live q)).1[k]?).map (full_file_pathway dir) := by
    intro k hk
    rw [hopen, List.getElem?_map, List.getElem?_take_of_lt hk]
  have hfit : ∀ n : List Char, dir.length + 1 + n.length < FULL_FILE_PATHWAY_SIZE →
      full_file_pathway dir n = dir ++ '/' :: n := by
    intro n hn
    unfold full_file_pathway snprintf
    apply List.take_of_length_le
    simp only [List.length_append, List.length_cons, FULL_FILE_PATHWAY_SIZE] at hn ⊢
    omega
  refine ⟨w, m, hrun, hm, hall, ?_, ?_, ?_, ?_, ?_, ?_⟩
  · rw [hopen, List.length_map, List.length_take, name_all_length]
    omega
  · intro k hk
    exact name_all_getElem? c (live q) k hk
  · intro k pre suf hu h1 h2 h3
    obtain ⟨hk, hk2⟩ := List.getElem?_eq_some.mp hu
    rw [name_all_getElem? c (live q) k hk, hk2, extract_derived _ pre suf h1 h2,
      strrchr_eq_none.mpr h3]
  · intro k n hk hn
    rw [hget k hk, hn]
    rfl
  · intro i j hi hj hij
    rw [hget i hi, hget j hj, hij]
  · intro i j ni nj hi hj hni hnj hne hfi hfj
    have hpi : (opened_paths w.trace)[i]? = some (dir ++ '/' :: ni) := by
      rw [hget i hi, hni, Option.map_some', hfit ni hfi]
    have hpj : (opened_paths w.trace)[j]? = some (dir ++ '/' :: nj) := by
      rw [hget j hj, hnj, Option.map_some', hfit nj hfj]
    refine ⟨hpi, hpj, ?_⟩
    rw [hpi, hpj]
    intro heq
    apply hne
    simpa using heq

/-- Witness of the amended C9 on three URLs, the first two named `x` and the third `y`: the
worker opens `./x`, `./x`, `./y`. -/
theorem opened_paths_pairwise_witness :
    ∃ w, Download_file sample_env ".".toList 4 0
        { urls := three_queue, default_file_num := 0, trace := [] } = some w ∧
      (opened_paths w.trace).length = 3 ∧
      (opened_paths w.trace)[0]? = (opened_paths w.trace)[1]? ∧
      (opened_paths w.trace)[0]? = some "./x".toList ∧
      (opened_paths w.trace)[2]? = some "./y".toList ∧
      (opened_paths w.trace)[0]? ≠ (opened_paths w.trace)[2]? := by
  obtain ⟨w, m, hrun, _, hall, hlen, _, hplain, _, hsame, hdiff⟩ :=
    opened_paths_pairwise three_queue three_queue_length sample_env ".".toList 0 4
      (by rw [three_queue_live]; decide)
  have hm : m = 3 := by
    have := hall (fun k _ => ⟨rfl, rfl⟩)
    rw [three_queue_live] at this
    exact this
  subst hm
  rw [three_queue_live] at hplain hsame hdiff
  have h0 := hplain 0 "https://a.com".toList "x".toList rfl (by decide) (by decide) (by decide)
  have h1 := hplain 1 "https://b.com".toList "x".toList rfl (by decide) (by decide) (by decide)
  have h2 := hplain 2 "https://c.com".toList "y".toList rfl (by decide) (by decide) (by decide)
  have hd := hdiff 0 2 "x".toList "y".toList (by decide) (by decide) h0 h2 (by decide)
    (by decide) (by decide)
  exact ⟨w, hrun, hlen, hsame 0 1 (by decide) (by decide) (h0.trans h1.symm), hd.1, hd.2.1,
    hd.2.2⟩

/-- C10: seeding from the two-line file `https://x.com/a.txt\nhttps://y.com/b.txt\r\n`: the
line ended by `\r\n` is stored without its terminator, the line ended by `\n` alone is stored
with its `\n`, and the file name derived from it ends in `\n`. -/
theorem seed_keeps_line_feed :
    (seed "https://x.com/a.txt\nhttps://y.com/b.txt\r\n".toList).map (fun urls => urls.take 3)
      = some [some "https://x.com/a.txt\n".toList, some "https://y.com/b.txt".toList, none] ∧
    extract_file_name 0 "https://x.com/a.txt\n".toList = ("a.txt\n".toList, 0) := by
  decide

end Downloader
